import Mathlib

/-!
Verification of the polygon-annotation editor core of the Yat repository.

The definitions below are a shallow embedding of the JavaScript sources:
  static/js/editor.js       (HistoryManager, HTREditor drawing and zoom)
  static/js/text_editor.js  (TextEditor sorting, text remapping, zoom, trim)
Snapshots are modelled abstractly: the JSON string produced by
JSON.stringify of the canvas objects is represented by a value of an
arbitrary type S, and the fabric canvas content is the field canvas : S.
-/

set_option linter.unusedVariables false

/-- State of HistoryManager (editor.js lines 4-81).
undoStack and redoStack are kept most-recent-first, so the JS push
(append at the array end) is cons and the JS shift (drop the oldest,
array front) is dropLast. pending models the snapshot argument captured
by the _loadObjects closure while the manager is locked. -/
structure HistoryManager (S : Type) where
  undoStack : List S
  redoStack : List S
  locked : Bool
  pending : Option S
  canvas : S
deriving DecidableEq, Repr

namespace HistoryManager

variable {S : Type}

/-- maxHistory field, set to 50 in the constructor (editor.js line 12). -/
def maxHistory : Nat := 50

/-- save (editor.js lines 15-23): no-op while locked; otherwise clears the
redo stack, evicts the oldest undo entry when the stack is full, and pushes
the serialized canvas. -/
def save (h : HistoryManager S) : HistoryManager S :=
  if h.locked then h
  else
    { h with
      redoStack := [],
      undoStack :=
        h.canvas ::
          (if maxHistory ≤ h.undoStack.length then h.undoStack.dropLast
           else h.undoStack) }

/-- The synchronous first half of undo (editor.js lines 25-33): guarded by
the stack size and the lock, then locks, moves the current top onto the redo
stack, and records the snapshot handed to _loadObjects in pending. -/
def undoBegin (h : HistoryManager S) : HistoryManager S :=
  match h.undoStack with
  | a :: b :: rest =>
    if h.locked then h
    else
      { h with
        locked := true,
        undoStack := b :: rest,
        redoStack := a :: h.redoStack,
        pending := some b }
  | _ => h

/-- The synchronous first half of redo (editor.js lines 36-43). -/
def redoBegin (h : HistoryManager S) : HistoryManager S :=
  match h.redoStack with
  | a :: rest =>
    if h.locked then h
    else
      { h with
        locked := true,
        redoStack := rest,
        undoStack := a :: h.undoStack,
        pending := some a }
  | [] => h

/-- Completion of _loadObjects (editor.js lines 68-79): the enliven callback
replaces the canvas content with the pending snapshot and releases the lock. -/
def loadComplete (h : HistoryManager S) : HistoryManager S :=
  match h.pending with
  | some v => { h with canvas := v, locked := false, pending := none }
  | none => h

/-- undo as observed from outside: for polygon data the fabric enliven
callback runs synchronously, so undo() performs undoBegin and the
_loadObjects completion in one step. -/
def undo (h : HistoryManager S) : HistoryManager S :=
  loadComplete (undoBegin h)

/-- redo as observed from outside. -/
def redo (h : HistoryManager S) : HistoryManager S :=
  loadComplete (redoBegin h)

/-- reset (editor.js lines 46-50): clears both stacks, then saves a fresh
baseline snapshot of the current canvas. -/
def reset (h : HistoryManager S) : HistoryManager S :=
  save { h with undoStack := [], redoStack := [] }

/-- A canvas mutation observed by the object:modified / object:added /
object:removed handlers (editor.js lines 486-494): the canvas content
changes and history.save() runs. -/
def mutate (h : HistoryManager S) (c : S) : HistoryManager S :=
  save { h with canvas := c }

/-- Mutations (each ending in a save() call) attempted while a restoration
is in flight, e.g. the object:added events fired by enlivenObjects. -/
def mutateList (h : HistoryManager S) (cs : List S) : HistoryManager S :=
  cs.foldl mutate h

/-- External operations on the history: a canvas mutation followed by
save(), an undo, or a redo. -/
inductive HMOp (S : Type) where
  | doSave (c : S)
  | doUndo
  | doRedo
deriving DecidableEq, Repr

def applyOp (h : HistoryManager S) : HMOp S → HistoryManager S
  | .doSave c => mutate h c
  | .doUndo => undo h
  | .doRedo => redo h

def applyOps (h : HistoryManager S) (ops : List (HMOp S)) : HistoryManager S :=
  ops.foldl applyOp h

/-- The descending list [a, a-1, ..., a-n+1] of length n: the undo stack
(most recent first) after numbered mutations. -/
def desc (a : Nat) : Nat → List Nat
  | 0 => []
  | n + 1 => a :: desc (a - 1) n

/-- Initial manager state at image load time, before the baseline snapshot:
empty stacks, unlocked, canvas serialized as 0. -/
def initHM : HistoryManager Nat :=
  { undoStack := [], redoStack := [], locked := false, pending := none, canvas := 0 }

/-- The state after reset() followed by N sequential canvas mutations where
mutation i makes the canvas serialize as i. -/
def runMutations : Nat → HistoryManager Nat
  | 0 => reset initHM
  | k + 1 => mutate (runMutations k) (k + 1)

end HistoryManager

/-- An integer point of the annotation wire format: coordinates are rounded
to integers on save (editor.js line 602). -/
structure IPoint where
  x : Int
  y : Int
deriving DecidableEq, Repr

/-- A stored region: an ordered point sequence (text_editor.js data model). -/
structure Region where
  points : List IPoint
deriving DecidableEq, Repr

/-- Minimum y coordinate of the points of a region: the JS spread of
Math.min over the mapped y coordinates, for a nonempty point list
(text_editor.js lines 385-386); regions always carry at least 3 points. -/
def minY (r : Region) : Int :=
  match r.points with
  | [] => 0
  | p :: ps => ps.foldl (fun m q => min m q.y) p.y

/-- Minimum x coordinate, as in text_editor.js lines 390-391. -/
def minX (r : Region) : Int :=
  match r.points with
  | [] => 0
  | p :: ps => ps.foldl (fun m q => min m q.x) p.x

/-- The comparator passed to Array.prototype.sort by sortRegionsTopToBottom
(text_editor.js lines 382-397): same row when tops differ by less than 10,
then compare lefts, otherwise compare tops. -/
def regionCmp (a b : Region) : Int :=
  let aTop := minY a
  let bTop := minY b
  if |aTop - bTop| < 10 then minX a - minX b
  else aTop - bTop

/-- Stable insertion of x into a run of already placed regions: x goes after
every y that the comparator does not order strictly after x. Together with
the fold below this models the ECMAScript stable Array.prototype.sort with
the comparator regionCmp. -/
def insertByCmp (x : Region) : List Region → List Region
  | [] => [x]
  | y :: ys => if regionCmp y x ≤ 0 then y :: insertByCmp x ys else x :: y :: ys

/-- sortRegionsTopToBottom (text_editor.js lines 382-397): a stable sort of
the region list under regionCmp. -/
def sortRegionsTopToBottom (regions : List Region) : List Region :=
  regions.foldl (fun acc r => insertByCmp r acc) []

/-- regionsAreEqual (text_editor.js lines 479-491): equal point counts and
pointwise equal x and y coordinates. -/
def regionsAreEqual (r1 r2 : Region) : Bool :=
  r1.points.length == r2.points.length &&
    (List.zip r1.points r2.points).all fun pq => pq.1.x == pq.2.x && pq.1.y == pq.2.y

/-- The matching loops of loadTextData (text_editor.js lines 414-423) and
saveData (lines 1017-1023): scan originalRegions in order and stop at the
first index whose region regionsAreEqual the probe; none models the JS
sentinel -1. -/
def findOrigIndex (origs : List Region) (r : Region) : Option Nat :=
  match origs with
  | [] => none
  | o :: rest =>
    if regionsAreEqual r o then some 0
    else (findOrigIndex rest r).map (· + 1)

/-- The saveData loop body (text_editor.js lines 1013-1029): walk the sorted
display list with its running index, find each region in the stored order,
and write the display text under the found original index; a later write to
the same original index overwrites an earlier one. -/
def saveTextsAux (origs : List Region) (texts : Nat → String) :
    Nat → List Region → (Nat → Option String) → (Nat → Option String)
  | _, [], acc => acc
  | si, r :: rest, acc =>
    saveTextsAux origs texts (si + 1) rest
      (match findOrigIndex origs r with
       | some oi => fun j => if j = oi then some (texts si) else acc j
       | none => acc)

/-- textsInOriginalOrder built by saveData (text_editor.js lines 1011-1029)
from the display-indexed texts. -/
def saveTextsInOriginalOrder (origs sorted : List Region) (texts : Nat → String) :
    Nat → Option String :=
  saveTextsAux origs texts 0 sorted (fun _ => none)

/-- The remapping performed by loadTextData (text_editor.js lines 404-427):
the text shown at display index si is the stored text of the first stored
region whose points equal the si-th sorted region, or the empty string when
no stored region matches (data.texts[-1] is undefined, hence the empty
string after the JS fallback with the or operator). -/
def loadTexts (origs sorted : List Region) (dataTexts : Nat → Option String)
    (si : Nat) : String :=
  match sorted[si]? with
  | none => ""
  | some r =>
    match findOrigIndex origs r with
    | some oi => (dataTexts oi).getD ""
    | none => ""

/-- A point in fabric canvas scene coordinates, modelled with rationals. -/
structure QPoint where
  x : ℚ
  y : ℚ
deriving DecidableEq, Repr

/-- Drawing state of HTREditor: the in-progress click points and the
polygons committed to the canvas so far. -/
structure DrawState where
  drawPoints : List QPoint
  polygons : List (List QPoint)
deriving DecidableEq, Repr

/-- The snap test of handleDrawClick (editor.js line 273):
Math.hypot(p0.x - p.x, p0.y - p.y) * zoom < snapDist. Both snapDist (15)
and the zoom factor are nonnegative, so the square-root comparison is
equivalent to this squared comparison, which keeps the test decidable. -/
def snapHit (snapDist zoom : ℚ) (p0 p : QPoint) : Bool :=
  ((p0.x - p.x) * (p0.x - p.x) + (p0.y - p.y) * (p0.y - p.y)) * (zoom * zoom) <
    snapDist * snapDist

/-- finishPolygon (editor.js lines 297-306): needs at least 3 points; copies
the collected points, clears the drawing state (abortDrawing) and adds the
polygon to the canvas. -/
def finishPolygon (st : DrawState) : DrawState :=
  if st.drawPoints.length < 3 then st
  else { drawPoints := [], polygons := st.polygons ++ [st.drawPoints] }

/-- handleDrawClick (editor.js lines 270-278): with more than 2 collected
points a click within snap distance of the first point finalizes the
polygon, otherwise the point is appended. drawPoints[0] is the head of the
placement-ordered list. -/
def handleDrawClick (snapDist zoom : ℚ) (st : DrawState) (p : QPoint) : DrawState :=
  if 2 < st.drawPoints.length ∧ snapHit snapDist zoom (st.drawPoints.headD ⟨0, 0⟩) p = true
  then finishPolygon st
  else { st with drawPoints := st.drawPoints ++ [p] }

/-- The single-panel wheel handler (editor.js lines 458-466): the requested
factor f stands for 0.999 raised to deltaY; the target zoom is clamped to
[0.01, 20] before zoomToPoint applies it. The two sequential JS ifs equal
this nested form because the first branch value 20 never triggers the
second test. -/
def htrWheelZoom (zoom f : ℚ) : ℚ :=
  if zoom * f > 20 then 20
  else if zoom * f < 0.01 then 0.01
  else zoom * f

/-- zoomFactor chosen from the wheel delta in the dual-panel handler
(text_editor.js line 554). -/
def textZoomFactor (deltaY : ℚ) : ℚ :=
  if deltaY > 0 then 0.9 else 1.1

/-- The dual-panel wheel handler (text_editor.js lines 549-581): a target
outside [0.1, 10] is rejected and the zoom stays unchanged; otherwise the
target becomes the new scale. -/
def textWheelZoom (zoom f : ℚ) : ℚ :=
  if zoom * f < 0.1 ∨ zoom * f > 10 then zoom else zoom * f

/-- Whitespace stripped by the JS String.prototype.trim call: the
ECMAScript WhiteSpace set (TAB, VT, FF, SP, NBSP, ZWNBSP and every Unicode
Space_Separator character, namely U+0020, U+00A0, U+1680, U+2000..U+200A,
U+202F, U+205F, U+3000) together with the LineTerminator set (LF, CR,
U+2028, U+2029). -/
def isTrimmedSpace (c : Char) : Bool :=
  c == ' ' || c == '\t' || c == '\n' || c == '\r' || c == '\x0b' || c == '\x0c' ||
    c == '\u00A0' || c == '\uFEFF' || c == '\u1680' ||
    ('\u2000' <= c && c <= '\u200A') ||
    c == '\u2028' || c == '\u2029' || c == '\u202F' || c == '\u205F' || c == '\u3000'

/-- textInput.value.trim() (text_editor.js line 927): drop leading and
trailing whitespace. -/
def jsTrim (s : String) : String :=
  ⟨(((s.toList.dropWhile isTrimmedSpace).reverse.dropWhile isTrimmedSpace).reverse)⟩

/-- The TextEditor state touched by saveCurrentText: the selected display
index, the display-indexed text map and the hasText flag of the polygon
pair at each display index. -/
structure TEState where
  currentRegionIndex : Int
  texts : Int → String
  hasText : Int → Bool

/-- saveCurrentText (text_editor.js lines 923-971): guarded on a selected
region, trims the modal input, stores it under the current display index
and sets the hasText flag of the matching polygons to text !== ''. -/
def saveCurrentText (st : TEState) (input : String) : TEState :=
  if st.currentRegionIndex < 0 then st
  else
    let text := jsTrim input
    { st with
      texts := fun i => if i = st.currentRegionIndex then text else st.texts i,
      hasText := fun i => if i = st.currentRegionIndex then text != "" else st.hasText i }

/-- Concrete region with y-top 100 and x-left 80 (testable property 5). -/
def regA : Region := ⟨[⟨80, 100⟩, ⟨90, 100⟩, ⟨85, 110⟩]⟩

/-- Concrete region with y-top 105 and x-left 10. -/
def regB : Region := ⟨[⟨10, 105⟩, ⟨30, 105⟩, ⟨20, 115⟩]⟩

/-- Concrete region with y-top 50 and x-left 0. -/
def regC : Region := ⟨[⟨0, 50⟩, ⟨40, 50⟩, ⟨20, 60⟩]⟩

namespace HistoryManager

variable {S : Type}

theorem save_of_locked (h : HistoryManager S) (hl : h.locked = true) : h.save = h := by
  simp [save, hl]

theorem mutate_of_locked (h : HistoryManager S) (c : S) (hl : h.locked = true) :
    mutate h c = { h with canvas := c } := by
  simp [mutate, save, hl]

theorem mutateList_of_locked (h : HistoryManager S) (cs : List S) (hl : h.locked = true) :
    (mutateList h cs).undoStack = h.undoStack ∧
    (mutateList h cs).redoStack = h.redoStack ∧
    (mutateList h cs).locked = true ∧
    (mutateList h cs).pending = h.pending := by
  induction cs generalizing h with
  | nil => exact ⟨rfl, rfl, hl, rfl⟩
  | cons c cs ih =>
    have hstep : mutate h c = { h with canvas := c } := mutate_of_locked h c hl
    have := ih { h with canvas := c } hl
    simpa [mutateList, hstep] using this

theorem loadComplete_undoStack (h : HistoryManager S) :
    (loadComplete h).undoStack = h.undoStack := by
  cases hp : h.pending <;> simp [loadComplete, hp]

theorem loadComplete_redoStack (h : HistoryManager S) :
    (loadComplete h).redoStack = h.redoStack := by
  cases hp : h.pending <;> simp [loadComplete, hp]

theorem undo_idle (h : HistoryManager S) (hl : h.locked = false) (hp : h.pending = none) :
    (undo h).locked = false ∧ (undo h).pending = none := by
  obtain ⟨us, rs, lk, pd, cv⟩ := h
  simp only at hl hp
  subst hl hp
  match us with
  | [] => exact ⟨rfl, rfl⟩
  | [a] => exact ⟨rfl, rfl⟩
  | a :: b :: rest => simp [undo, undoBegin, loadComplete]

theorem applyOp_undoStack_ne_nil (h : HistoryManager S) (op : HMOp S)
    (hne : h.undoStack ≠ []) : (applyOp h op).undoStack ≠ [] := by
  obtain ⟨us, rs, lk, pd, cv⟩ := h
  simp only at hne
  cases op with
  | doSave c =>
    cases lk with
    | true => simpa [applyOp, mutate, save] using hne
    | false => simp [applyOp, mutate, save]
  | doUndo =>
    rw [applyOp, undo, loadComplete_undoStack]
    match us, hne with
    | [a], hne2 => simp [undoBegin]
    | a :: b :: rest, hne2 => cases lk <;> simp [undoBegin]
  | doRedo =>
    rw [applyOp, redo, loadComplete_undoStack]
    match rs with
    | [] => simpa [redoBegin] using hne
    | a :: rest =>
      cases lk with
      | true => simpa [redoBegin] using hne
      | false => simp [redoBegin]

theorem applyOp_sum_le (h : HistoryManager S) (op : HMOp S)
    (hb : h.undoStack.length + h.redoStack.length ≤ 50) :
    (applyOp h op).undoStack.length + (applyOp h op).redoStack.length ≤ 50 := by
  obtain ⟨us, rs, lk, pd, cv⟩ := h
  simp only at hb
  cases op with
  | doSave c =>
    cases lk with
    | true => simpa [applyOp, mutate, save] using hb
    | false =>
      by_cases hlen : maxHistory ≤ us.length
      · have h50 : (if maxHistory ≤ us.length then us.dropLast else us).length =
            us.length - 1 := by
          rw [if_pos hlen, List.length_dropLast]
        have hge : 50 ≤ us.length := by simpa [maxHistory] using hlen
        simp only [applyOp, mutate, save, Bool.false_eq_true, if_false,
          List.length_cons, List.length_nil, h50]
        omega
      · have h50 : (if maxHistory ≤ us.length then us.dropLast else us).length =
            us.length := by rw [if_neg hlen]
        have hlt : us.length < 50 := by
          by_contra hcon
          exact hlen (by simpa [maxHistory] using Nat.le_of_not_lt hcon)
        simp only [applyOp, mutate, save, Bool.false_eq_true, if_false,
          List.length_cons, List.length_nil, h50]
        omega
  | doUndo =>
    rw [applyOp, undo, loadComplete_undoStack, loadComplete_redoStack]
    match us with
    | [] => simpa [undoBegin] using hb
    | [a] => simpa [undoBegin] using hb
    | a :: b :: rest =>
      cases lk with
      | true => simpa [undoBegin] using hb
      | false =>
        simp only [undoBegin, Bool.false_eq_true, if_false, List.length_cons]
        simp only [List.length_cons] at hb
        omega
  | doRedo =>
    rw [applyOp, redo, loadComplete_undoStack, loadComplete_redoStack]
    match rs with
    | [] => simpa [redoBegin] using hb
    | a :: rest =>
      cases lk with
      | true => simpa [redoBegin] using hb
      | false =>
        simp only [redoBegin, Bool.false_eq_true, if_false, List.length_cons]
        simp only [List.length_cons] at hb
        omega

end HistoryManager

open HistoryManager in
/-- C1: restoration never feeds back into history. While the lock is held,
save() is the identity; an undo or redo, with any mutations attempted during
its restoration window, moves exactly one snapshot between the stacks,
preserves the total snapshot count, and releases the lock. -/
theorem restoration_never_feeds_back :
    (∀ (S : Type) (h : HistoryManager S), h.locked = true → h.save = h) ∧
    (∀ (S : Type) (h : HistoryManager S) (cs : List S) (a b : S) (rest : List S),
      h.locked = false → h.undoStack = a :: b :: rest →
      (loadComplete (mutateList (undoBegin h) cs)).undoStack = b :: rest ∧
      (loadComplete (mutateList (undoBegin h) cs)).redoStack = a :: h.redoStack ∧
      (loadComplete (mutateList (undoBegin h) cs)).undoStack.length +
          (loadComplete (mutateList (undoBegin h) cs)).redoStack.length =
        h.undoStack.length + h.redoStack.length ∧
      (loadComplete (mutateList (undoBegin h) cs)).locked = false) ∧
    (∀ (S : Type) (h : HistoryManager S) (cs : List S) (a : S) (rest : List S),
      h.locked = false → h.redoStack = a :: rest →
      (loadComplete (mutateList (redoBegin h) cs)).undoStack = a :: h.undoStack ∧
      (loadComplete (mutateList (redoBegin h) cs)).redoStack = rest ∧
      (loadComplete (mutateList (redoBegin h) cs)).undoStack.length +
          (loadComplete (mutateList (redoBegin h) cs)).redoStack.length =
        h.undoStack.length + h.redoStack.length ∧
      (loadComplete (mutateList (redoBegin h) cs)).locked = false) := by
  refine ⟨fun S h hl => save_of_locked h hl, ?_, ?_⟩
  · intro S h cs a b rest hl hst
    obtain ⟨us, rs, lk, pd, cv⟩ := h
    simp only at hl hst
    subst hl hst
    have hbeg : undoBegin (S := S) ⟨a :: b :: rest, rs, false, pd, cv⟩ =
        ⟨b :: rest, a :: rs, true, some b, cv⟩ := by
      simp [undoBegin]
    rw [hbeg]
    obtain ⟨h1, h2, h3, h4⟩ :=
      mutateList_of_locked (S := S) ⟨b :: rest, a :: rs, true, some b, cv⟩ cs rfl
    constructor
    · rw [loadComplete_undoStack, h1]
    constructor
    · rw [loadComplete_redoStack, h2]
    constructor
    · rw [loadComplete_undoStack, loadComplete_redoStack, h1, h2]
      simp only [List.length_cons]
      omega
    · simp [loadComplete, h4]
  · intro S h cs a rest hl hst
    obtain ⟨us, rs, lk, pd, cv⟩ := h
    simp only at hl hst
    subst hl hst
    have hbeg : redoBegin (S := S) ⟨us, a :: rest, false, pd, cv⟩ =
        ⟨a :: us, rest, true, some a, cv⟩ := by
      simp [redoBegin]
    rw [hbeg]
    obtain ⟨h1, h2, h3, h4⟩ :=
      mutateList_of_locked (S := S) ⟨a :: us, rest, true, some a, cv⟩ cs rfl
    constructor
    · rw [loadComplete_undoStack, h1]
    constructor
    · rw [loadComplete_redoStack, h2]
    constructor
    · rw [loadComplete_undoStack, loadComplete_redoStack, h1, h2]
      simp only [List.length_cons]
      omega
    · simp [loadComplete, h4]

open HistoryManager in
/-- Witness for C1 at a concrete manager state over Nat snapshots. -/
theorem restoration_never_feeds_back_witness :
    HistoryManager.save ⟨[1], [], true, none, 5⟩ = (⟨[1], [], true, none, 5⟩ : HistoryManager Nat) ∧
    (loadComplete (mutateList (undoBegin (⟨[2, 1], [9], false, none, 2⟩ : HistoryManager Nat)) [7, 8])).undoStack = [1] ∧
    (loadComplete (mutateList (redoBegin (⟨[1], [4], false, none, 1⟩ : HistoryManager Nat)) [7])).undoStack = [4, 1] :=
  ⟨restoration_never_feeds_back.1 Nat ⟨[1], [], true, none, 5⟩ rfl,
   (restoration_never_feeds_back.2.1 Nat ⟨[2, 1], [9], false, none, 2⟩ [7, 8] 2 1 [] rfl rfl).1,
   (restoration_never_feeds_back.2.2 Nat ⟨[1], [4], false, none, 1⟩ [7] 4 [] rfl rfl).1⟩

open HistoryManager in
/-- C4: every save() performed in the unlocked state empties the redo stack,
and after undo, undo, then a fresh mutation the redo stack is empty and a
subsequent redo() is a no-op. -/
theorem redo_invalidation :
    (∀ (S : Type) (h : HistoryManager S) (c : S), h.locked = false →
      (mutate h c).redoStack = []) ∧
    (∀ (S : Type) (h : HistoryManager S) (c : S), h.locked = false → h.pending = none →
      (mutate (undo (undo h)) c).redoStack = [] ∧
      redo (mutate (undo (undo h)) c) = mutate (undo (undo h)) c) := by
  constructor
  · intro S h c hl
    simp [mutate, save, hl]
  · intro S h c hl hp
    obtain ⟨hl1, hp1⟩ := undo_idle h hl hp
    obtain ⟨hl2, hp2⟩ := undo_idle (undo h) hl1 hp1
    have hredo : (mutate (undo (undo h)) c).redoStack = [] := by
      simp [mutate, save, hl2]
    refine ⟨hredo, ?_⟩
    have hpend : (mutate (undo (undo h)) c).pending = none := by
      simp [mutate, save, hl2, hp2]
    rw [redo]
    have hbeg : redoBegin (mutate (undo (undo h)) c) = mutate (undo (undo h)) c := by
      rw [redoBegin.eq_def]
      split
      · next heq => rw [hredo] at heq; cases heq
      · rfl
    rw [hbeg, loadComplete.eq_def]
    split
    · next heq => rw [hpend] at heq; cases heq
    · rfl

open HistoryManager in
/-- Witness for C4 at a concrete manager state over Nat snapshots. -/
theorem redo_invalidation_witness :
    (mutate (⟨[3, 2, 1], [6], false, none, 3⟩ : HistoryManager Nat) 9).redoStack = [] ∧
    (mutate (undo (undo (⟨[3, 2, 1], [], false, none, 3⟩ : HistoryManager Nat))) 9).redoStack = [] ∧
    redo (mutate (undo (undo (⟨[3, 2, 1], [], false, none, 3⟩ : HistoryManager Nat))) 9) =
      mutate (undo (undo (⟨[3, 2, 1], [], false, none, 3⟩ : HistoryManager Nat))) 9 :=
  ⟨redo_invalidation.1 Nat ⟨[3, 2, 1], [6], false, none, 3⟩ 9 rfl,
   (redo_invalidation.2 Nat ⟨[3, 2, 1], [], false, none, 3⟩ 9 rfl rfl).1,
   (redo_invalidation.2 Nat ⟨[3, 2, 1], [], false, none, 3⟩ 9 rfl rfl).2⟩

open HistoryManager in
/-- C7: reset() leaves exactly the fresh baseline snapshot on the undo stack
with an empty redo stack, undo() is a no-op when at most one entry remains,
and the undo stack stays non-empty under every sequence of save, undo and
redo operations. -/
theorem baseline_snapshot_protected :
    (∀ (S : Type) (h : HistoryManager S), h.locked = false →
      (reset h).undoStack = [h.canvas] ∧ (reset h).redoStack = []) ∧
    (∀ (S : Type) (h : HistoryManager S), h.undoStack.length ≤ 1 → h.pending = none →
      undo h = h) ∧
    (∀ (S : Type) (h : HistoryManager S) (ops : List (HMOp S)),
      h.undoStack ≠ [] → (applyOps h ops).undoStack ≠ []) := by
  refine ⟨?_, ?_, ?_⟩
  · intro S h hl
    constructor <;> simp [reset, save, hl, maxHistory]
  · intro S h hlen hp
    obtain ⟨us, rs, lk, pd, cv⟩ := h
    simp only at hp
    subst hp
    match us, hlen with
    | [], _ => simp [undo, undoBegin, loadComplete]
    | [a], _ => simp [undo, undoBegin, loadComplete]
    | a :: b :: rest, hlen => simp at hlen
  · intro S h ops hne
    induction ops generalizing h with
    | nil => exact hne
    | cons op ops ih =>
      exact ih (applyOp h op) (applyOp_undoStack_ne_nil h op hne)

open HistoryManager in
/-- Witness for C7 at concrete manager states over Nat snapshots. -/
theorem baseline_snapshot_protected_witness :
    (reset (⟨[3, 2], [7], false, none, 4⟩ : HistoryManager Nat)).undoStack = [4] ∧
    undo (⟨[3], [7], false, none, 3⟩ : HistoryManager Nat) = ⟨[3], [7], false, none, 3⟩ ∧
    (applyOps (⟨[3], [], false, none, 3⟩ : HistoryManager Nat)
        [HMOp.doSave 5, HMOp.doUndo, HMOp.doUndo, HMOp.doRedo]).undoStack ≠ [] :=
  ⟨(baseline_snapshot_protected.1 Nat ⟨[3, 2], [7], false, none, 4⟩ rfl).1,
   baseline_snapshot_protected.2.1 Nat ⟨[3], [7], false, none, 3⟩ (by decide) rfl,
   baseline_snapshot_protected.2.2 Nat ⟨[3], [], false, none, 3⟩
     [HMOp.doSave 5, HMOp.doUndo, HMOp.doUndo, HMOp.doRedo] (by decide)⟩



namespace HistoryManager

theorem desc_length : ∀ (n a : Nat), (desc a n).length = n
  | 0, _ => rfl
  | n + 1, a => by simp [desc, desc_length n]

theorem desc_dropLast : ∀ (n a : Nat), (desc a (n + 1)).dropLast = desc a n
  | 0, a => rfl
  | n + 1, a => by
    show (a :: desc (a - 1) (n + 1)).dropLast = a :: desc (a - 1) n
    rw [desc]
    rw [List.dropLast_cons₂]
    rw [← desc]
    rw [desc_dropLast n (a - 1)]
theorem runMutations_closed (k : Nat) :
    runMutations k =
      { undoStack := desc k (min (k + 1) 50), redoStack := [], locked := false,
        pending := none, canvas := k } := by
  induction k with
  | zero => decide
  | succ k ih =>
    rw [runMutations, ih]
    by_cases hk : k + 1 ≤ 49
    · have hmin : min (k + 1) 50 = k + 1 := by omega
      have hmin2 : min (k + 1 + 1) 50 = k + 1 + 1 := by omega
      have hclt : ¬ (50 ≤ k + 1) := by omega
      simp [mutate, save, maxHistory, desc_length, hmin, hmin2, hclt, desc,
        Nat.add_sub_cancel]
    · have hmin : min (k + 1) 50 = 50 := by omega
      have hmin2 : min (k + 1 + 1) 50 = 50 := by omega
      have hstep : desc (k + 1) 50 = (k + 1) :: desc k 49 := by
        have h0 : desc (k + 1) 50 = (k + 1) :: desc (k + 1 - 1) 49 := rfl
        simpa using h0
      have hdrop : (desc k 50).dropLast = desc k 49 := desc_dropLast 49 k
      simp [mutate, save, maxHistory, desc_length, hmin, hmin2, hstep, hdrop]

theorem undo_desc : ∀ (j : Nat), 1 ≤ j → ∀ (a : Nat) (rs : List Nat) (cv : Nat),
    ∃ rs' : List Nat,
      undo^[j] ({ undoStack := desc a (j + 1), redoStack := rs, locked := false,
                  pending := none, canvas := cv } : HistoryManager Nat) =
        { undoStack := [a - j], redoStack := rs', locked := false,
          pending := none, canvas := a - j } := by
  intro j
  induction j with
  | zero => intro h; omega
  | succ j ih =>
    intro _ a rs cv
    by_cases hj : j = 0
    · subst hj
      refine ⟨a :: rs, ?_⟩
      rw [Function.iterate_one]
      show undo ({ undoStack := [a, a - 1], redoStack := rs, locked := false,
                   pending := none, canvas := cv } : HistoryManager Nat) = _
      simp [undo, undoBegin, loadComplete]
    · have hj1 : 1 ≤ j := by omega
      rw [Function.iterate_succ_apply]
      have hstep : undo ({ undoStack := desc a (j + 1 + 1), redoStack := rs,
                           locked := false, pending := none, canvas := cv } : HistoryManager Nat) =
          { undoStack := desc (a - 1) (j + 1), redoStack := a :: rs, locked := false,
            pending := none, canvas := a - 1 } := by
        show undo ({ undoStack := a :: (a - 1) :: desc (a - 1 - 1) j, redoStack := rs,
                     locked := false, pending := none, canvas := cv } : HistoryManager Nat) = _
        simp [undo, undoBegin, loadComplete, desc]
      rw [hstep]
      obtain ⟨rs', hrs'⟩ := ih hj1 (a - 1) (a :: rs) (a - 1)
      refine ⟨rs', ?_⟩
      rw [hrs']
      have h1 : a - 1 - j = a - (j + 1) := by omega
      rw [h1]

end HistoryManager

set_option maxRecDepth 100000

open HistoryManager in
/-- C3 counterexample: with 52 mutations (serialized as 1..52) after the
baseline, the evicted snapshots are the baseline 0 and the snapshots 1 and 2
of the first two mutations; undoing 50 times leaves the canvas at snapshot
3, not at snapshot 1, the state recorded after the first evicted mutation. -/
theorem history_depth_counterexample :
    (undo^[50] (runMutations 52)).canvas = 3 ∧ (3 : Nat) ≠ 1 := by
  constructor
  · decide
  · decide

open HistoryManager in
/-- C3 amended: the undo stack never exceeds 50 entries; N > 50 mutations
leave exactly the snapshots of the last 50 mutations, oldest discarded on
each overflow, and undoing 50 times returns to the state after mutation
N - 49 (the oldest retained snapshot, the one immediately following the
last evicted mutation), which is neither the original state nor the state
after the first evicted mutation. -/
theorem history_depth_bound_amended :
    (∀ (S : Type) (h : HistoryManager S) (ops : List (HMOp S)),
      h.undoStack.length + h.redoStack.length ≤ 50 →
      (applyOps h ops).undoStack.length ≤ 50) ∧
    (∀ N : Nat, 50 < N →
      (runMutations N).undoStack = desc N 50 ∧
      (runMutations N).undoStack.length = 50 ∧
      (undo^[50] (runMutations N)).canvas = N - 49 ∧
      N - 49 ≠ 0 ∧ 2 ≤ N - 49) := by
  constructor
  · intro S h ops hb
    have hsum : (applyOps h ops).undoStack.length + (applyOps h ops).redoStack.length ≤ 50 := by
      induction ops generalizing h with
      | nil => exact hb
      | cons op ops ih => exact ih (applyOp h op) (applyOp_sum_le h op hb)
    omega
  · intro N hN
    have hmin : min (N + 1) 50 = 50 := by omega
    have hclosed : runMutations N =
        { undoStack := desc N 50, redoStack := [], locked := false,
          pending := none, canvas := N } := by
      rw [runMutations_closed N, hmin]
    refine ⟨by rw [hclosed], by rw [hclosed, desc_length], ?_, by omega, by omega⟩
    obtain ⟨rs', hrs'⟩ := undo_desc 49 (by omega) N [] N
    have hfin : undo^[49] (runMutations N) =
        { undoStack := [N - 49], redoStack := rs', locked := false,
          pending := none, canvas := N - 49 } := by
      rw [hclosed]; exact hrs'
    have h1 : undo^[50] (runMutations N) = undo (undo^[49] (runMutations N)) :=
      Function.iterate_succ_apply' undo 49 (runMutations N)
    rw [h1, hfin]
    simp [undo, undoBegin, loadComplete]

open HistoryManager in
/-- Witness for C3 amended at N = 51 and a concrete operation list. -/
theorem history_depth_bound_amended_witness :
    (applyOps (⟨[3, 2, 1], [], false, none, 3⟩ : HistoryManager Nat)
        [HMOp.doSave 4, HMOp.doUndo]).undoStack.length ≤ 50 ∧
    ((runMutations 51).undoStack = desc 51 50 ∧
      (runMutations 51).undoStack.length = 50 ∧
      (undo^[50] (runMutations 51)).canvas = 51 - 49 ∧
      51 - 49 ≠ 0 ∧ 2 ≤ 51 - 49) :=
  ⟨history_depth_bound_amended.1 Nat ⟨[3, 2, 1], [], false, none, 3⟩
      [HMOp.doSave 4, HMOp.doUndo] (by decide),
   history_depth_bound_amended.2 51 (by decide)⟩

/-- C5: the sort comparator orders by minimum y, treats tops closer than 10
pixels as the same row ordered by minimum x, and on the three concrete
regions with y-tops 100, 105, 50 and x-lefts 80, 10, 0 the sorted order is
[y-top 50, y-top 105 with x-left 10, y-top 100 with x-left 80]. -/
theorem sort_determinism :
    (∀ a b : Region,
      (|minY a - minY b| < 10 → regionCmp a b = minX a - minX b) ∧
      (¬ |minY a - minY b| < 10 → regionCmp a b = minY a - minY b)) ∧
    sortRegionsTopToBottom [regA, regB, regC] = [regC, regB, regA] := by
  refine ⟨fun a b => ⟨fun h => ?_, fun h => ?_⟩, by decide⟩
  · simp [regionCmp, h]
  · simp [regionCmp, h]

/-- Witness for C5 applying the comparator characterization to the concrete
regions of the claim. -/
theorem sort_determinism_witness :
    regionCmp regA regB = minX regA - minX regB ∧
    regionCmp regA regC = minY regA - minY regC :=
  ⟨(sort_determinism.1 regA regB).1 (by decide),
   (sort_determinism.1 regA regC).2 (by decide)⟩

/-- C6: a placement click with fewer than 3 collected points appends the
point; with more than 2 points a click within viewport snap distance of the
first point finalizes the polygon and appends nothing; in particular the
concrete session of testable property 7 finalizes a 3-point polygon. -/
theorem snap_to_close :
    (∀ (s z : ℚ) (st : DrawState) (p : QPoint), st.drawPoints.length < 3 →
      handleDrawClick s z st p = { st with drawPoints := st.drawPoints ++ [p] }) ∧
    (∀ (s z : ℚ) (st : DrawState) (p : QPoint), 2 < st.drawPoints.length →
      snapHit s z (st.drawPoints.headD ⟨0, 0⟩) p = true →
      handleDrawClick s z st p =
        { drawPoints := [], polygons := st.polygons ++ [st.drawPoints] }) ∧
    handleDrawClick 15 1 ⟨[⟨0, 0⟩, ⟨10, 0⟩, ⟨10, 10⟩], []⟩ ⟨1, 1⟩ =
      ⟨[], [[⟨0, 0⟩, ⟨10, 0⟩, ⟨10, 10⟩]]⟩ := by
  refine ⟨?_, ?_, by norm_num [handleDrawClick, snapHit, finishPolygon]⟩
  · intro s z st p hlen
    rw [handleDrawClick, if_neg]
    intro hc
    omega
  · intro s z st p hlen hsnap
    rw [handleDrawClick, if_pos ⟨hlen, hsnap⟩, finishPolygon, if_neg]
    omega

/-- Witness for C6: an append on a 1-point session and a snap-close on a
4-point session at zoom 2. -/
theorem snap_to_close_witness :
    handleDrawClick 15 1 ⟨[⟨0, 0⟩], []⟩ ⟨5, 5⟩ = ⟨[⟨0, 0⟩, ⟨5, 5⟩], []⟩ ∧
    handleDrawClick 15 2 ⟨[⟨0, 0⟩, ⟨4, 0⟩, ⟨4, 4⟩, ⟨0, 4⟩], []⟩ ⟨1, 0⟩ =
      ⟨[], [[⟨0, 0⟩, ⟨4, 0⟩, ⟨4, 4⟩, ⟨0, 4⟩]]⟩ :=
  ⟨snap_to_close.1 15 1 ⟨[⟨0, 0⟩], []⟩ ⟨5, 5⟩ (by norm_num),
   snap_to_close.2.1 15 2 ⟨[⟨0, 0⟩, ⟨4, 0⟩, ⟨4, 4⟩, ⟨0, 4⟩], []⟩ ⟨1, 0⟩
     (by norm_num) (by norm_num [snapHit])⟩

/-- C8 counterexample: in the dual-panel text editor at zoom 9.5 a zoom-in
wheel request (factor 1.1, target 10.45 above the bound 10) leaves the zoom
at 9.5 instead of clamping it to the nearest bound 10. -/
theorem zoom_clamp_counterexample :
    textWheelZoom 9.5 (textZoomFactor (-100)) = 9.5 ∧
    textWheelZoom 9.5 (textZoomFactor (-100)) ≠ 10 := by
  constructor
  · norm_num [textWheelZoom, textZoomFactor]
  · norm_num [textWheelZoom, textZoomFactor]

/-- C8 amended: the single-panel editor clamps every wheel-zoom target to
[0.01, 20], landing exactly on the nearest bound for an out-of-range
target; the dual-panel text editor keeps an in-range zoom inside [0.1, 10]
but rejects an out-of-range target outright, leaving the zoom at its
previous value rather than at the nearest bound. -/
theorem zoom_clamp_amended :
    (∀ z f : ℚ, 0.01 ≤ htrWheelZoom z f ∧ htrWheelZoom z f ≤ 20) ∧
    (∀ z f : ℚ, 20 < z * f → htrWheelZoom z f = 20) ∧
    (∀ z f : ℚ, z * f < 0.01 → htrWheelZoom z f = 0.01) ∧
    (∀ z f : ℚ, 0.1 ≤ z → z ≤ 10 →
      0.1 ≤ textWheelZoom z f ∧ textWheelZoom z f ≤ 10) ∧
    (∀ z f : ℚ, (z * f < 0.1 ∨ z * f > 10) → textWheelZoom z f = z) := by
  refine ⟨?_, ?_, ?_, ?_, ?_⟩
  · intro z f
    unfold htrWheelZoom
    split_ifs with h1 h2
    · constructor <;> norm_num
    · constructor <;> norm_num
    · constructor <;> [linarith; linarith]
  · intro z f h
    unfold htrWheelZoom
    rw [if_pos h]
  · intro z f h
    unfold htrWheelZoom
    rw [if_neg (by linarith), if_pos h]
  · intro z f h1 h2
    unfold textWheelZoom
    split_ifs with h
    · exact ⟨h1, h2⟩
    · push_neg at h
      exact ⟨h.1, h.2⟩
  · intro z f h
    unfold textWheelZoom
    rw [if_pos h]

/-- Witness for C8 amended at concrete zooms and factors. -/
theorem zoom_clamp_amended_witness :
    (0.01 ≤ htrWheelZoom 1 30 ∧ htrWheelZoom 1 30 ≤ 20) ∧
    htrWheelZoom 1 30 = 20 ∧
    htrWheelZoom 1 (1 / 1000) = 0.01 ∧
    (0.1 ≤ textWheelZoom 5 1 ∧ textWheelZoom 5 1 ≤ 10) ∧
    textWheelZoom (1 / 5) (1 / 10) = 1 / 5 :=
  ⟨zoom_clamp_amended.1 1 30,
   zoom_clamp_amended.2.1 1 30 (by norm_num),
   zoom_clamp_amended.2.2.1 1 (1 / 1000) (by norm_num),
   zoom_clamp_amended.2.2.2.1 5 1 (by norm_num) (by norm_num),
   zoom_clamp_amended.2.2.2.2 (1 / 5) (1 / 10) (by norm_num)⟩

theorem jsTrim_of_all_space (input : String)
    (h : input.toList.all isTrimmedSpace = true) : jsTrim input = "" := by
  have hall : ∀ c ∈ input.toList, isTrimmedSpace c := by
    intro c hc
    exact List.all_eq_true.mp h c hc
  have hdrop : input.toList.dropWhile isTrimmedSpace = [] :=
    List.dropWhile_eq_nil_iff.mpr hall
  rw [jsTrim, hdrop]
  rfl

/-- C10: saveCurrentText stores the modal input with surrounding whitespace
removed under the selected display index, sets the hasText flag to the
emptiness test of the trimmed text, and a whitespace-only input is stored
as the empty string with the hasText flag false. -/
theorem text_trimmed_on_save :
    ∀ (st : TEState) (input : String), 0 ≤ st.currentRegionIndex →
      (saveCurrentText st input).texts st.currentRegionIndex = jsTrim input ∧
      (saveCurrentText st input).hasText st.currentRegionIndex = (jsTrim input != "") ∧
      (input.toList.all isTrimmedSpace = true →
        (saveCurrentText st input).texts st.currentRegionIndex = "" ∧
        (saveCurrentText st input).hasText st.currentRegionIndex = false) := by
  intro st input h0
  have hneg : ¬ st.currentRegionIndex < 0 := by omega
  refine ⟨?_, ?_, ?_⟩
  · simp [saveCurrentText, hneg]
  · simp [saveCurrentText, hneg]
  · intro hws
    have htrim : jsTrim input = "" := jsTrim_of_all_space input hws
    constructor
    · simp [saveCurrentText, hneg, htrim]
    · simp [saveCurrentText, hneg, htrim]

/-- Witness for C10 on a whitespace-only input (including NBSP, ideographic
space and the line separator) at display index 0. -/
theorem text_trimmed_on_save_witness :
    (saveCurrentText ⟨0, fun _ => "x", fun _ => true⟩ " \t\u00A0\u3000\u2028 ").texts 0 = "" ∧
    (saveCurrentText ⟨0, fun _ => "x", fun _ => true⟩ " \t\u00A0\u3000\u2028 ").hasText 0 = false :=
  (text_trimmed_on_save ⟨0, fun _ => "x", fun _ => true⟩ " \t\u00A0\u3000\u2028 " (by decide)).2.2 (by decide)

theorem pointsEq_of_zipAll : ∀ (l1 l2 : List IPoint),
    l1.length = l2.length →
    ((l1.zip l2).all fun pq => pq.1.x == pq.2.x && pq.1.y == pq.2.y) = true →
    l1 = l2 := by
  intro l1
  induction l1 with
  | nil =>
    intro l2 hlen hall
    cases l2 with
    | nil => rfl
    | cons q l2 => simp at hlen
  | cons p l1 ih =>
    intro l2 hlen hall
    cases l2 with
    | nil => simp at hlen
    | cons q l2 =>
      simp only [List.zip_cons_cons, List.all_cons, Bool.and_eq_true, beq_iff_eq] at hall
      obtain ⟨⟨hx, hy⟩, hrest⟩ := hall
      have hlen2 : l1.length = l2.length := by simpa using hlen
      have hpq : p = q := by
        cases p; cases q
        simp only at hx hy
        simp [hx, hy]
      rw [hpq, ih l2 hlen2 hrest]

theorem zipAll_refl : ∀ l : List IPoint,
    ((l.zip l).all fun pq => pq.1.x == pq.2.x && pq.1.y == pq.2.y) = true := by
  intro l
  induction l with
  | nil => rfl
  | cons p l ih => simp [ih]

theorem regionsAreEqual_iff (r1 r2 : Region) : regionsAreEqual r1 r2 = true ↔ r1 = r2 := by
  constructor
  · intro h
    rw [regionsAreEqual, Bool.and_eq_true, beq_iff_eq] at h
    obtain ⟨hlen, hall⟩ := h
    cases r1; cases r2
    simp only at hlen hall ⊢
    rw [pointsEq_of_zipAll _ _ hlen hall]
  · intro h
    subst h
    rw [regionsAreEqual, Bool.and_eq_true, beq_iff_eq]
    exact ⟨rfl, zipAll_refl r1.points⟩

theorem findOrigIndex_eq_some : ∀ (origs : List Region) (r : Region) (oi : Nat),
    findOrigIndex origs r = some oi → origs[oi]? = some r := by
  intro origs
  induction origs with
  | nil => intro r oi h; rw [findOrigIndex] at h; exact Option.noConfusion h
  | cons o rest ih =>
    intro r oi h
    rw [findOrigIndex] at h
    by_cases he : regionsAreEqual r o = true
    · rw [if_pos he] at h
      have hoi : oi = 0 := (Option.some.injEq _ _).mp h.symm
      subst hoi
      have hro : r = o := (regionsAreEqual_iff r o).mp he
      simp [hro]
    · rw [if_neg he] at h
      cases hfr : findOrigIndex rest r with
      | none => rw [hfr] at h; exact Option.noConfusion h
      | some k =>
        rw [hfr] at h
        have hoi : k + 1 = oi := by simpa using h
        subst hoi
        simpa using ih r k hfr

theorem findOrigIndex_mem : ∀ (origs : List Region) (r : Region), r ∈ origs →
    ∃ oi, findOrigIndex origs r = some oi := by
  intro origs
  induction origs with
  | nil => intro r h; exact absurd h (List.not_mem_nil r)
  | cons o rest ih =>
    intro r h
    by_cases he : regionsAreEqual r o = true
    · exact ⟨0, by rw [findOrigIndex, if_pos he]⟩
    · have hne : r ≠ o := fun hcon => he ((regionsAreEqual_iff r o).mpr hcon)
      have hmem : r ∈ rest := by
        cases List.mem_cons.mp h with
        | inl hcon => exact absurd hcon hne
        | inr hr => exact hr
      obtain ⟨k, hk⟩ := ih r hmem
      exact ⟨k + 1, by rw [findOrigIndex, if_neg he, hk]; rfl⟩

theorem findOrigIndex_min : ∀ (origs : List Region) (r : Region) (oi : Nat),
    findOrigIndex origs r = some oi →
    ∀ k, origs[k]? = some r → oi ≤ k := by
  intro origs
  induction origs with
  | nil => intro r oi h; rw [findOrigIndex] at h; exact Option.noConfusion h
  | cons o rest ih =>
    intro r oi h k hk
    rw [findOrigIndex] at h
    by_cases he : regionsAreEqual r o = true
    · rw [if_pos he] at h
      have hoi : oi = 0 := (Option.some.injEq _ _).mp h.symm
      subst hoi
      exact Nat.zero_le k
    · rw [if_neg he] at h
      cases hfr : findOrigIndex rest r with
      | none => rw [hfr] at h; exact Option.noConfusion h
      | some j =>
        rw [hfr] at h
        have hoi : j + 1 = oi := by simpa using h
        subst hoi
        cases k with
        | zero =>
          have hor : o = r := by simpa using hk
          exact absurd ((regionsAreEqual_iff r o).mpr hor.symm) he
        | succ k =>
          have hk2 : rest[k]? = some r := by simpa using hk
          exact Nat.succ_le_succ (ih r j hfr k hk2)

theorem findOrigIndex_inj (origs : List Region) (r r' : Region) (oi : Nat)
    (h1 : findOrigIndex origs r = some oi) (h2 : findOrigIndex origs r' = some oi) :
    r = r' := by
  have g1 := findOrigIndex_eq_some origs r oi h1
  have g2 := findOrigIndex_eq_some origs r' oi h2
  rw [g1] at g2
  exact (Option.some.injEq _ _).mp g2

theorem saveTextsAux_no_writer (origs : List Region) (texts : Nat → String) :
    ∀ (l : List Region) (si0 : Nat) (acc : Nat → Option String) (oi : Nat),
    (∀ (k : Nat) (r : Region), l[k]? = some r → findOrigIndex origs r ≠ some oi) →
    saveTextsAux origs texts si0 l acc oi = acc oi := by
  intro l
  induction l with
  | nil => intro si0 acc oi h; rfl
  | cons x xs ih =>
    intro si0 acc oi h
    have hx : findOrigIndex origs x ≠ some oi := h 0 x (by simp)
    have hrest : ∀ (k : Nat) (r : Region), xs[k]? = some r → findOrigIndex origs r ≠ some oi :=
      fun k r hk => h (k + 1) r (by simpa using hk)
    rw [saveTextsAux]
    cases hfx : findOrigIndex origs x with
    | none =>
      simp only
      exact ih (si0 + 1) acc oi hrest
    | some oj =>
      have hoi : oi ≠ oj := fun hcon => hx (by rw [hfx, hcon])
      simp only
      rw [ih (si0 + 1) _ oi hrest]
      simp [hoi]

theorem saveTextsAux_last_writer (origs : List Region) (texts : Nat → String) :
    ∀ (l : List Region) (k si0 : Nat) (acc : Nat → Option String) (r : Region) (oi : Nat),
    l[k]? = some r → findOrigIndex origs r = some oi →
    (∀ (j : Nat) (r' : Region), k < j → l[j]? = some r' → findOrigIndex origs r' ≠ some oi) →
    saveTextsAux origs texts si0 l acc oi = some (texts (si0 + k)) := by
  intro l
  induction l with
  | nil => intro k si0 acc r oi hk; rw [List.getElem?_nil] at hk; exact Option.noConfusion hk
  | cons x xs ih =>
    intro k si0 acc r oi hk hfind hlater
    cases k with
    | zero =>
      have hx : x = r := by simpa using hk
      subst hx
      rw [saveTextsAux, hfind]
      simp only
      rw [saveTextsAux_no_writer origs texts xs (si0 + 1) _ oi
        (fun j r' hj => hlater (j + 1) r' (Nat.succ_pos j) (by simpa using hj))]
      simp
    | succ k =>
      have hk2 : xs[k]? = some r := by simpa using hk
      have hlater2 : ∀ (j : Nat) (r' : Region), k < j → xs[j]? = some r' →
          findOrigIndex origs r' ≠ some oi :=
        fun j r' h1 h2 => hlater (j + 1) r' (by omega) (by simpa using h2)
      rw [saveTextsAux, ih k (si0 + 1) _ r oi hk2 hfind hlater2]
      have harith : si0 + 1 + k = si0 + (k + 1) := by omega
      rw [harith]

theorem insertByCmp_perm (x : Region) : ∀ l : List Region,
    (insertByCmp x l).Perm (x :: l) := by
  intro l
  induction l with
  | nil => exact List.Perm.refl [x]
  | cons y ys ih =>
    rw [insertByCmp]
    split_ifs with h
    · exact (ih.cons y).trans (List.Perm.swap x y ys)
    · exact List.Perm.refl _

theorem sortFold_perm : ∀ (l acc : List Region),
    (l.foldl (fun a r => insertByCmp r a) acc).Perm (acc ++ l) := by
  intro l
  induction l with
  | nil => intro acc; simp
  | cons x xs ih =>
    intro acc
    rw [List.foldl_cons]
    refine ((ih (insertByCmp x acc)).trans ?_)
    refine (((insertByCmp_perm x acc).append_right xs).trans ?_)
    exact List.perm_middle.symm

theorem sortRegions_perm (l : List Region) : (sortRegionsTopToBottom l).Perm l := by
  simpa using sortFold_perm l []

theorem nodup_getElem?_inj (l : List Region) (i j : Nat) (a : Region)
    (hn : l.Nodup) (h1 : l[i]? = some a) (h2 : l[j]? = some a) : i = j := by
  have hi : i < l.length := by
    by_contra hcon
    rw [List.getElem?_eq_none (Nat.le_of_not_lt hcon)] at h1
    exact Option.noConfusion h1
  exact List.getElem?_inj hi hn (h1.trans h2.symm)

/-- C2: for stored regions with pairwise distinct point sequences, writing
display-indexed texts through the saveData display-to-storage mapping and
reading them back through the loadTextData storage-to-display mapping, with
the same top-to-bottom left-to-right sort, returns the same text at the
same display index; a sorted region with no exact point-sequence match
reads as the empty string. -/
theorem text_index_remap_roundtrip :
    (∀ (origs : List Region) (texts : Nat → String) (si : Nat),
      origs.Nodup → si < (sortRegionsTopToBottom origs).length →
      loadTexts origs (sortRegionsTopToBottom origs)
        (saveTextsInOriginalOrder origs (sortRegionsTopToBottom origs) texts) si =
        texts si) ∧
    (∀ (origs sorted : List Region) (dataTexts : Nat → Option String) (si : Nat) (r : Region),
      sorted[si]? = some r → findOrigIndex origs r = none →
      loadTexts origs sorted dataTexts si = "") := by
  constructor
  · intro origs texts si hnd hsi
    have hperm := sortRegions_perm origs
    have hndS : (sortRegionsTopToBottom origs).Nodup := hperm.symm.nodup hnd
    obtain ⟨r, hr⟩ : ∃ r, (sortRegionsTopToBottom origs)[si]? = some r :=
      ⟨_, List.getElem?_eq_getElem hsi⟩
    have hrmem : r ∈ origs := hperm.mem_iff.mp (List.getElem?_mem hr)
    obtain ⟨oi, hoi⟩ := findOrigIndex_mem origs r hrmem
    simp only [loadTexts, hr, hoi]
    have hlast := saveTextsAux_last_writer origs texts (sortRegionsTopToBottom origs)
      si 0 (fun _ => none) r oi hr hoi ?_
    · rw [saveTextsInOriginalOrder, hlast]
      simp
    · intro j r' hj hjr hcon
      have hrr : r' = r := findOrigIndex_inj origs r' r oi hcon hoi
      subst hrr
      exact absurd (nodup_getElem?_inj _ si j r' hndS hr hjr) (by omega)
  · intro origs sorted dataTexts si r hr hnone
    simp only [loadTexts, hr, hnone]

/-- Witness for C2: a three-region store saved and reloaded through the
sorted view at display index 0, and an unmatched region reading empty. -/
theorem text_index_remap_roundtrip_witness :
    loadTexts [regA, regB, regC] (sortRegionsTopToBottom [regA, regB, regC])
      (saveTextsInOriginalOrder [regA, regB, regC]
        (sortRegionsTopToBottom [regA, regB, regC])
        (fun i => if i = 0 then "alpha" else if i = 1 then "beta" else "gamma")) 0 =
      (if (0 : Nat) = 0 then "alpha" else if (0 : Nat) = 1 then "beta" else "gamma") ∧
    loadTexts [regA] [regB] (fun _ => some "stored") 0 = "" :=
  ⟨text_index_remap_roundtrip.1 [regA, regB, regC]
      (fun i => if i = 0 then "alpha" else if i = 1 then "beta" else "gamma") 0
      (by decide) (by decide),
   text_index_remap_roundtrip.2 [regA] [regB] (fun _ => some "stored") 0 regB
      (by simp) (by decide)⟩

/-- C9: the matcher always returns the lowest matching stored index, so all
duplicate display regions read the text of the first matching stored region, and
on write all duplicate display indices land on that same stored index with
the last-processed display index overwriting the earlier ones. -/
theorem duplicate_first_match_wins :
    (∀ (origs : List Region) (r : Region), r ∈ origs →
      ∃ oi, findOrigIndex origs r = some oi ∧ origs[oi]? = some r ∧
        ∀ k, origs[k]? = some r → oi ≤ k) ∧
    (∀ (origs sorted : List Region) (dataTexts : Nat → Option String)
        (si sj : Nat) (r : Region),
      sorted[si]? = some r → sorted[sj]? = some r →
      loadTexts origs sorted dataTexts si = loadTexts origs sorted dataTexts sj) ∧
    (∀ (origs sorted : List Region) (texts : Nat → String)
        (si sj : Nat) (r : Region) (oi : Nat),
      si < sj → sorted[si]? = some r → sorted[sj]? = some r →
      findOrigIndex origs r = some oi →
      (∀ (k : Nat) (r' : Region), sj < k → sorted[k]? = some r' →
        findOrigIndex origs r' ≠ some oi) →
      saveTextsInOriginalOrder origs sorted texts oi = some (texts sj)) := by
  refine ⟨?_, ?_, ?_⟩
  · intro origs r hmem
    obtain ⟨oi, hoi⟩ := findOrigIndex_mem origs r hmem
    exact ⟨oi, hoi, findOrigIndex_eq_some origs r oi hoi,
      findOrigIndex_min origs r oi hoi⟩
  · intro origs sorted dataTexts si sj r h1 h2
    simp only [loadTexts, h1, h2]
  · intro origs sorted texts si sj r oi hlt h1 h2 hfind hlater
    rw [saveTextsInOriginalOrder,
      saveTextsAux_last_writer origs texts sorted sj 0 (fun _ => none) r oi h2 hfind hlater]
    simp

/-- Witness for C9 on a store holding the same region twice. -/
theorem duplicate_first_match_wins_witness :
    (∃ oi, findOrigIndex [regA, regA] regA = some oi ∧
      ([regA, regA] : List Region)[oi]? = some regA ∧
      ∀ k, ([regA, regA] : List Region)[k]? = some regA → oi ≤ k) ∧
    loadTexts [regA, regA] [regA, regA] (fun _ => some "dup") 0 =
      loadTexts [regA, regA] [regA, regA] (fun _ => some "dup") 1 ∧
    saveTextsInOriginalOrder [regA, regA] [regA, regA]
      (fun i => if i = 0 then "first" else "second") 0 =
      some (if (1 : Nat) = 0 then "first" else "second") :=
  ⟨duplicate_first_match_wins.1 [regA, regA] regA (by simp),
   duplicate_first_match_wins.2.1 [regA, regA] [regA, regA] (fun _ => some "dup")
     0 1 regA (by simp) (by simp),
   duplicate_first_match_wins.2.2 [regA, regA] [regA, regA]
     (fun i => if i = 0 then "first" else "second") 0 1 regA 0 (by omega)
     (by simp) (by simp) (by decide)
     (by
       intro k r' hk hkr
       exfalso
       rw [List.getElem?_eq_none (by simpa using hk)] at hkr
       exact Option.noConfusion hkr)⟩
